import Mathlib

/-!
Verification of the dining-philosophers program (`src/philosophers.cpp`).

The C++ source is shallowly embedded below, definition by definition:

* `Fork` state is its boolean `m_is_available` flag; `try_to_get`,
  `wait_until_available` and `fork_free` mirror the three member functions.
* `Philosopher.States` mirrors the state enum; the per-philosopher control
  flow of `thinking` / `aquire_forks` / `eating` is embedded as a small-step
  transition system `Step` over all philosophers and forks of a ring.
* `Monitor.log_state` / `Monitor.monitor_worker` are embedded as a fold over
  a trace of queue operations, respectively a recursion over the sequence of
  drain-loop iterations.
* `Simple_log_monitor.events_logger` and `Waterfall_monitor.events_logger`
  are embedded as pure functions from an event batch to rendered output.
* `Canteen`'s constructor and `main`'s argument handling are embedded as
  `Canteen_ctor` and `num_ph`.
-/

namespace Philosophers

/-- `Philosopher::States` from `philosophers.cpp` (the `PHILOSOPHERS_STARVATION`
variant with the `dead` state is not compiled in: the macro is never defined). -/
inductive States where
  | thinks
  | hungry
  | dines
deriving DecidableEq, Repr

/-- `Monitor::state_log_element_type`: a pair (philosopher id, state). -/
abbrev Event := Nat × States

/-! ## Fork (`philosophers.cpp` lines 19–80)

A fork's mutable state is its `m_is_available : bool` flag (the mutex and
condition variable only serialize access and park waiters).  Each member
function is a function of that flag; `wait_until_available` additionally
takes the value the flag has when the `wait_for` call returns, since another
thread's `free` may have changed it during the wait. -/

/-- `Fork::try_to_get`: returns (result, new availability flag). -/
def try_to_get (m_is_available : Bool) : Bool × Bool :=
  if m_is_available then (true, false) else (false, m_is_available)

/-- `Fork::wait_until_available`: checks the flag, and if unavailable waits
(up to `g_max_interval_ms`) and re-checks the flag, whose value at the
re-check is `avail_after_wait`.  Returns (result, new availability flag). -/
def wait_until_available (m_is_available avail_after_wait : Bool) : Bool × Bool :=
  if m_is_available then (true, false)
  else if avail_after_wait then (true, false)
  else (false, avail_after_wait)

/-- `Fork::free`: unconditionally sets the flag to `true` and calls
`notify_one`.  Returns (new availability flag, a notify was issued). -/
def fork_free (_m_is_available : Bool) : Bool × Bool :=
  (true, true)

/-! ## Canteen constructor (`philosophers.cpp` lines 322–349) and `main` -/

/-- One constructed philosopher: its id and the ids of the forks it was wired
to (`forks[i]` on the left, `forks[(i + 1) % n]` on the right). -/
structure PhilosopherWiring where
  id : Nat
  left_fork : Nat
  right_fork : Nat
deriving DecidableEq, Repr

/-- `Canteen::Canteen`: throws `invalid_argument` for fewer than two
philosophers, otherwise builds `n` forks and `n` philosophers wired into a
ring.  The thrown exception is modelled as `Except.error`. -/
def Canteen_ctor (number_of_philosophers : Nat) :
    Except String (List Nat × List PhilosopherWiring) :=
  if number_of_philosophers < 2 then
    .error "Invalid number of philosophers (<2)"
  else
    .ok ((List.range number_of_philosophers),
      (List.range number_of_philosophers).map fun i =>
        ⟨i, i, (i + 1) % number_of_philosophers⟩)

/-- `main`: `unsigned const num_ph = argc < 2 ? 64 : std::max(2, atoi(argv[1]))`.
`parsed` is the `int` value `atoi` produced (0 for non-numeric input). -/
def num_ph (parsed : Int) : Nat :=
  (max 2 parsed).toNat

/-- `EXIT_FAILURE`, returned by `main` when an exception reaches its catch. -/
def EXIT_FAILURE : Nat := 1

/-! ## Waterfall monitor (`philosophers.cpp` lines 417–464) -/

/-- `Waterfall_monitor::symb`: the state-to-character mapping. -/
def symb : States → Char
  | .thinks => ' '
  | .hungry => '.'
  | .dines => '|'

/-- The body of the `log_event` lambda in `Waterfall_monitor::events_logger`:
grow `m_buffer` with thinking symbols up to index `el.1` if needed, then
overwrite position `el.1` with the symbol for `el.2`. -/
def wf_log_event (m_buffer : List Char) (el : Event) : List Char :=
  let m_buffer :=
    if m_buffer.length ≤ el.1 then
      m_buffer ++ List.replicate (el.1 + 1 - m_buffer.length) (symb .thinks)
    else m_buffer
  m_buffer.set el.1 (symb el.2)

/-- `Waterfall_monitor::events_logger`: apply `wf_log_event` to each event of
the batch in order, returning the updated snapshot buffer. -/
def wf_events_logger (m_buffer : List Char) (work_log : List Event) : List Char :=
  work_log.foldl wf_log_event m_buffer

/-! ## Simple log monitor (`philosophers.cpp` lines 376–415) -/

/-- The `log_event` lambda in `Simple_log_monitor::events_logger`: the one
output line produced for an event. -/
def sl_log_event (el : Event) : String :=
  let word :=
    match el.2 with
    | .thinks => "thinks"
    | .hungry => "hungry"
    | .dines => "dines"
  "Philosopher #" ++ toString el.1 ++ " " ++ word

/-- `Simple_log_monitor::events_logger`: one line per event of the batch. -/
def sl_events_logger (work_log : List Event) : List String :=
  work_log.map sl_log_event

/-- The word the `switch` in `Simple_log_monitor::events_logger` prints for
each state. -/
def state_word : States → String
  | .thinks => "thinks"
  | .hungry => "hungry"
  | .dines => "dines"

/-- The line format claimed by the specification for the line-oriented
renderer: `"Agent #<id> <state-name>"`. -/
def spec_agent_line (el : Event) : String :=
  let word :=
    match el.2 with
    | .thinks => "thinks"
    | .hungry => "hungry"
    | .dines => "dines"
  "Agent #" ++ toString el.1 ++ " " ++ word

/-! ## Monitor queue (`philosophers.cpp` lines 261–310)

`Monitor::log_state` appends one event to `m_log_queue` under the queue
mutex; each drain pass of `Monitor::monitor_worker` swaps the whole queue
for the empty `work_log` under the same mutex.  A run of the system is a
trace of these two atomic queue operations in some interleaved order. -/

/-- One atomic operation on the monitor's queue: an `emplace_back` from
`log_state`, or one drain pass's `std::swap` from `monitor_worker`. -/
inductive MonOp where
  | append (e : Event)
  | drain
deriving DecidableEq, Repr

/-- The monitor's observable state: the pending `m_log_queue` and the list of
batches already handed to `events_logger`, in order. -/
structure MonState where
  m_log_queue : List Event
  batches : List (List Event)
deriving DecidableEq, Repr

/-- Effect of one queue operation.  `append` is `m_log_queue.emplace_back`;
`drain` is guarded by `!m_log_queue.empty()` and swaps the queue with the
empty `work_log`, handing the old contents to `events_logger` as one batch. -/
def mon_step (s : MonState) (op : MonOp) : MonState :=
  match op with
  | .append e => { s with m_log_queue := s.m_log_queue ++ [e] }
  | .drain =>
    if s.m_log_queue.isEmpty then s
    else { m_log_queue := [], batches := s.batches ++ [s.m_log_queue] }

/-- Run a trace of queue operations from the initial (empty) monitor state. -/
def mon_run (ops : List MonOp) : MonState :=
  ops.foldl mon_step ⟨[], []⟩

/-- The events appended over a trace, in trace order. -/
def appended_events (ops : List MonOp) : List Event :=
  ops.filterMap fun op =>
    match op with
    | .append e => some e
    | .drain => none

/-! ## Monitor drain loop (`philosophers.cpp` lines 281–300)

One iteration of the `for (;;)` loop either finds `m_log_queue` non-empty
(then drains and renders it) or waits on `m_state_logged_event` for
`10 * g_max_interval_ms`; a timed-out wait throws
`std::runtime_error("No events for a long time")`. -/

/-- The watchdog wait bound: `10 * g_max_interval_ms` milliseconds. -/
def watchdog_wait_ms (g_max_interval_ms : Nat) : Nat :=
  10 * g_max_interval_ms

/-- What one iteration of the drain loop observes: the queue contents at the
`empty()` check, and — relevant only when the queue was empty — whether the
`wait_for` on `m_state_logged_event` ended in `std::cv_status::timeout`
(no event arrived in the whole `watchdog_wait_ms` window). -/
structure MonIter where
  queue : List Event
  timed_out : Bool
deriving DecidableEq, Repr

/-- The message of the `std::runtime_error` thrown by the watchdog. -/
def liveness_msg : String := "No events for a long time"

/-- `Monitor::monitor_worker` over a finite sequence of iteration
observations: returns the batches handed to `events_logger` and the thrown
exception, if any.  The loop itself never returns; an exhausted observation
list (result `none`) means the loop was still running. -/
def monitor_worker : List MonIter → List (List Event) × Option String
  | [] => ([], none)
  | it :: rest =>
    if !it.queue.isEmpty then
      let r := monitor_worker rest
      (it.queue :: r.1, r.2)
    else if it.timed_out then
      ([], some liveness_msg)
    else
      monitor_worker rest

/-- `Canteen::operator()` (lines 351–369): launches the threads, runs
`monitor_worker`, catches any exception from it (logging it to `cerr`), and
then unconditionally throws `std::logic_error("Unexpected exit")`.  Input is
the exception `monitor_worker` ended with; output is the `cerr` lines and
the exception leaving `operator()`. -/
def canteen_call (monitor_fault : Option String) : List String × Except String Unit :=
  match monitor_fault with
  | some msg => (["Catch std::exception:" ++ msg], .error "Unexpected exit")
  | none => ([], .error "Unexpected exit")

/-- `main`'s outcome: `0` when `canteen()` returns normally, `EXIT_FAILURE`
when its catch handlers run. -/
def main_exit_code (canteen_result : Except String Unit) : Nat :=
  match canteen_result with
  | .ok _ => 0
  | .error _ => EXIT_FAILURE

/-! ## Philosopher thread body (`philosophers.cpp` lines 116–130)

`Philosopher::operator()` wraps the entire `for (;;)` cycle loop in one
`try`/`catch (...)`: the handler prints to `cerr` and the function then
returns, ending the thread.  Each pass of the loop (one
thinking/aquire/eating cycle) either completes or raises; the embedding
runs over the sequence of cycle outcomes. -/

/-- Outcome of one thinking/aquire/eating cycle of a philosopher. -/
inductive CycleOutcome where
  | ok
  | exn
deriving DecidableEq, Repr

/-- `Philosopher::operator()` in `philosophers.cpp`: cycles run until the
first one that raises; that exception is caught by the `catch (...)` outside
the loop, so the loop is not re-entered.  Returns the cycles that actually
ran and whether an exception escaped `operator()` (it never does). -/
def philosopher_run_cpp : List CycleOutcome → List CycleOutcome × Bool
  | [] => ([], false)
  | .ok :: rest =>
    let r := philosopher_run_cpp rest
    (.ok :: r.1, r.2)
  | .exn :: _ => ([.exn], false)

/-- `Philosopher::operator()` in the `src/unnamed/part_001` variant: the
`try`/`catch (...)` is inside the `for (;;)`, so every cycle runs no matter
how earlier cycles ended, and no exception escapes. -/
def philosopher_run_part001 (cycles : List CycleOutcome) : List CycleOutcome × Bool :=
  (cycles, false)

/-! ## The ring of philosophers as a transition system
(`Philosopher::thinking` / `aquire_forks` / `eating`, lines 152–212)

Each philosopher thread runs the cycle `thinking(); aquire_forks(); eating()`.
Its control position, refined to the points between fork operations, is a
program counter; the forks' availability flags, together with who last
claimed each, form the shared state.  Each fork operation (a claim inside
`try_to_get` / `wait_until_available`, or a `free`) is atomic — it runs
under the fork's mutex — and each `state(...)` assignment is fused with the
adjacent fork operation of the same thread.  `check_for_death` is a no-op
(`PHILOSOPHERS_STARVATION` is not defined). -/

/-- Program counter of one philosopher thread, between atomic fork
operations.  The fork holdings at each point follow the source:
`hungryTryR` is reached right after `wait_until_available` on the left fork
returned `true`; `hungryWaitR` right after the failed `try_to_get` on the
right fork was followed by `m_p_left_fork->free()`; and so on. -/
inductive PC where
  | thinks
  | hungryWaitL
  | hungryTryR
  | hungryWaitR
  | hungryTryL
  | dines
  | freedRight
deriving DecidableEq, Repr

/-- Shared state of a ring of `n` philosophers and `n` forks: each thread's
program counter, and for each fork the philosopher that claimed it
(`none` models `m_is_available == true`). -/
structure RingState (n : Nat) where
  pc : Fin n → PC
  heldBy : Fin n → Option (Fin n)

/-- Philosopher `i`'s left fork: `forks[i]` in `Canteen::Canteen`. -/
def left_fork {n : Nat} (i : Fin n) : Fin n := i

/-- Philosopher `i`'s right fork: `forks[(i + 1) % n]` in `Canteen::Canteen`. -/
def right_fork {n : Nat} (i : Fin n) : Fin n :=
  ⟨(i.val + 1) % n, Nat.mod_lt _ i.pos⟩

/-- All philosophers constructed in `States::thinks`, all forks available. -/
def init_state (n : Nat) : RingState n :=
  ⟨fun _ => .thinks, fun _ => none⟩

/-- Update one philosopher's program counter. -/
def setPC {n : Nat} (s : RingState n) (i : Fin n) (p : PC) : RingState n :=
  ⟨Function.update s.pc i p, s.heldBy⟩

/-- Update one fork's holder. -/
def setFork {n : Nat} (s : RingState n) (f : Fin n) (v : Option (Fin n)) : RingState n :=
  ⟨s.pc, Function.update s.heldBy f v⟩

/-- One atomic step of some philosopher thread `i`, following the control
flow of `operator()`:

* `startHungry`: `aquire_forks` begins, `state(States::hungry)`.
* `waitLeftFail`: `wait_until_available` on the left fork times out with the
  fork still claimed; `check_for_death()` is a no-op and the `while` retries.
* `waitLeftSucc`: the left fork is available and is claimed.
* `tryRightSucc`: `try_to_get` on the right fork succeeds — `break`, and
  `eating()` sets `state(States::dines)`.
* `tryRightFail`: the right fork is claimed, so `m_p_left_fork->free()` runs
  and control moves to the wait on the right fork.
* `waitRightFail` / `waitRightSucc` / `tryLeftSucc` / `tryLeftFail`: the
  mirrored second half of the `for (;;)` body; `tryLeftFail` frees the right
  fork and loops back to the wait on the left fork.
* `finishDining`: `eating()` runs `m_p_right_fork->free()`.
* `backToThinks`: `eating()` runs `m_p_left_fork->free()` and the next
  `thinking()` sets `state(States::thinks)`. -/
inductive Step {n : Nat} : RingState n → RingState n → Prop where
  | startHungry (s : RingState n) (i : Fin n) :
      s.pc i = .thinks →
      Step s (setPC s i .hungryWaitL)
  | waitLeftFail (s : RingState n) (i : Fin n) :
      s.pc i = .hungryWaitL → s.heldBy (left_fork i) ≠ none →
      Step s s
  | waitLeftSucc (s : RingState n) (i : Fin n) :
      s.pc i = .hungryWaitL → s.heldBy (left_fork i) = none →
      Step s (setFork (setPC s i .hungryTryR) (left_fork i) (some i))
  | tryRightSucc (s : RingState n) (i : Fin n) :
      s.pc i = .hungryTryR → s.heldBy (right_fork i) = none →
      Step s (setFork (setPC s i .dines) (right_fork i) (some i))
  | tryRightFail (s : RingState n) (i : Fin n) :
      s.pc i = .hungryTryR → s.heldBy (right_fork i) ≠ none →
      Step s (setFork (setPC s i .hungryWaitR) (left_fork i) none)
  | waitRightFail (s : RingState n) (i : Fin n) :
      s.pc i = .hungryWaitR → s.heldBy (right_fork i) ≠ none →
      Step s s
  | waitRightSucc (s : RingState n) (i : Fin n) :
      s.pc i = .hungryWaitR → s.heldBy (right_fork i) = none →
      Step s (setFork (setPC s i .hungryTryL) (right_fork i) (some i))
  | tryLeftSucc (s : RingState n) (i : Fin n) :
      s.pc i = .hungryTryL → s.heldBy (left_fork i) = none →
      Step s (setFork (setPC s i .dines) (left_fork i) (some i))
  | tryLeftFail (s : RingState n) (i : Fin n) :
      s.pc i = .hungryTryL → s.heldBy (left_fork i) ≠ none →
      Step s (setFork (setPC s i .hungryWaitL) (right_fork i) none)
  | finishDining (s : RingState n) (i : Fin n) :
      s.pc i = .dines →
      Step s (setFork (setPC s i .freedRight) (right_fork i) none)
  | backToThinks (s : RingState n) (i : Fin n) :
      s.pc i = .freedRight →
      Step s (setFork (setPC s i .thinks) (left_fork i) none)

/-- States reachable from the all-thinking initial state by the threads'
interleaved atomic steps. -/
def Reachable (n : Nat) (s : RingState n) : Prop :=
  Relation.ReflTransGen Step (init_state n) s

/-- Whether a philosopher at program counter `p` holds its left fork,
read off the control flow of `aquire_forks` / `eating`. -/
def holds_left : PC → Bool
  | .hungryTryR | .dines | .freedRight => true
  | _ => false

/-- Whether a philosopher at program counter `p` holds its right fork. -/
def holds_right : PC → Bool
  | .hungryTryL | .dines => true
  | _ => false

/-- The ring invariant: each philosopher holds exactly the forks its program
counter says it holds. -/
def Inv {n : Nat} (s : RingState n) : Prop :=
  ∀ i : Fin n,
    (s.heldBy (left_fork i) = some i ↔ holds_left (s.pc i) = true) ∧
    (s.heldBy (right_fork i) = some i ↔ holds_right (s.pc i) = true)

/-- In a ring of at least two, a philosopher's left and right forks differ. -/
lemma left_ne_right {n : Nat} (hn : 2 ≤ n) (i : Fin n) :
    left_fork i ≠ right_fork i := by
  intro h
  have hv : i.val = (i.val + 1) % n := congrArg Fin.val h
  have hi := i.isLt
  rcases Nat.lt_or_ge (i.val + 1) n with h1 | h1
  · rw [Nat.mod_eq_of_lt h1] at hv
    omega
  · have he : i.val + 1 = n := by omega
    have hz : (i.val + 1) % n = 0 := by rw [he]; exact Nat.mod_self n
    omega

/-- Updating a fork whose holder is neither `j` before nor after the update
preserves `j`'s view of any fork. -/
lemma update_other_iff {n : Nat} {heldBy : Fin n → Option (Fin n)} {f g j : Fin n}
    {v : Option (Fin n)} {P : Prop}
    (hiff : heldBy g = some j ↔ P)
    (hvold : heldBy f ≠ some j) (hvnew : v ≠ some j) :
    Function.update heldBy f v g = some j ↔ P := by
  by_cases hgf : g = f
  · subst hgf
    rw [Function.update_same]
    constructor
    · intro h
      exact absurd h hvnew
    · intro hp
      exact absurd (hiff.mpr hp) hvold
  · rw [Function.update_noteq hgf]
    exact hiff

/-- A step by philosopher `i` that moves its program counter to `p'` and
rewrites only its left fork preserves the ring invariant, provided the new
holdings match `p'` and the fork's holder is `i` or nobody on both sides of
the update. -/
lemma inv_upd_left {n : Nat} (hn : 2 ≤ n) {s : RingState n} (hInv : Inv s)
    (i : Fin n) (p' : PC) (v : Option (Fin n))
    (hv : v = some i ∨ v = none)
    (hold : s.heldBy (left_fork i) = some i ∨ s.heldBy (left_fork i) = none)
    (hleft : v = some i ↔ holds_left p' = true)
    (hright : s.heldBy (right_fork i) = some i ↔ holds_right p' = true) :
    Inv (setFork (setPC s i p') (left_fork i) v) := by
  have hvnotother : ∀ j : Fin n, j ≠ i → v ≠ some j := by
    intro j hji hv'
    rcases hv with h | h <;> rw [h] at hv'
    · exact hji (Option.some.inj hv').symm
    · exact Option.noConfusion hv'
  have holdnotother : ∀ j : Fin n, j ≠ i → s.heldBy (left_fork i) ≠ some j := by
    intro j hji hv'
    rcases hold with h | h <;> rw [h] at hv'
    · exact hji (Option.some.inj hv').symm
    · exact Option.noConfusion hv'
  intro j
  dsimp only [setFork, setPC]
  by_cases hji : j = i
  · subst hji
    rw [Function.update_same]
    rw [Function.update_same]
    rw [Function.update_noteq (left_ne_right hn j).symm]
    exact ⟨hleft, hright⟩
  · rw [Function.update_noteq hji]
    exact ⟨update_other_iff (hInv j).1 (holdnotother j hji) (hvnotother j hji),
      update_other_iff (hInv j).2 (holdnotother j hji) (hvnotother j hji)⟩

/-- Mirror of `inv_upd_left` for a step that rewrites only `i`'s right fork. -/
lemma inv_upd_right {n : Nat} (hn : 2 ≤ n) {s : RingState n} (hInv : Inv s)
    (i : Fin n) (p' : PC) (v : Option (Fin n))
    (hv : v = some i ∨ v = none)
    (hold : s.heldBy (right_fork i) = some i ∨ s.heldBy (right_fork i) = none)
    (hleft : s.heldBy (left_fork i) = some i ↔ holds_left p' = true)
    (hright : v = some i ↔ holds_right p' = true) :
    Inv (setFork (setPC s i p') (right_fork i) v) := by
  have hvnotother : ∀ j : Fin n, j ≠ i → v ≠ some j := by
    intro j hji hv'
    rcases hv with h | h <;> rw [h] at hv'
    · exact hji (Option.some.inj hv').symm
    · exact Option.noConfusion hv'
  have holdnotother : ∀ j : Fin n, j ≠ i → s.heldBy (right_fork i) ≠ some j := by
    intro j hji hv'
    rcases hold with h | h <;> rw [h] at hv'
    · exact hji (Option.some.inj hv').symm
    · exact Option.noConfusion hv'
  intro j
  dsimp only [setFork, setPC]
  by_cases hji : j = i
  · subst hji
    rw [Function.update_same]
    rw [Function.update_noteq (left_ne_right hn j)]
    rw [Function.update_same]
    exact ⟨hleft, hright⟩
  · rw [Function.update_noteq hji]
    exact ⟨update_other_iff (hInv j).1 (holdnotother j hji) (hvnotother j hji),
      update_other_iff (hInv j).2 (holdnotother j hji) (hvnotother j hji)⟩

/-- A step that only changes `i`'s program counter preserves the invariant
when the holdings encoded by the old and new counters agree. -/
lemma inv_upd_pc {n : Nat} {s : RingState n} (hInv : Inv s) (i : Fin n) (p' : PC)
    (hleft : s.heldBy (left_fork i) = some i ↔ holds_left p' = true)
    (hright : s.heldBy (right_fork i) = some i ↔ holds_right p' = true) :
    Inv (setPC s i p') := by
  intro j
  dsimp only [setPC]
  by_cases hji : j = i
  · subst hji
    rw [Function.update_same]
    exact ⟨hleft, hright⟩
  · rw [Function.update_noteq hji]
    exact hInv j

/-- Every atomic step of the ring preserves the invariant. -/
lemma inv_step {n : Nat} (hn : 2 ≤ n) {s s' : RingState n}
    (hInv : Inv s) (hstep : Step s s') : Inv s' := by
  cases hstep with
  | startHungry i h =>
    apply inv_upd_pc hInv i
    · have h1 := (hInv i).1
      rw [h] at h1
      simpa [holds_left] using h1
    · have h2 := (hInv i).2
      rw [h] at h2
      simpa [holds_right] using h2
  | waitLeftFail i h h2 => exact hInv
  | waitLeftSucc i h hav =>
    apply inv_upd_left hn hInv i _ _ (Or.inl rfl) (Or.inr hav)
    · simp [holds_left]
    · have h2 := (hInv i).2
      rw [h] at h2
      simpa [holds_right] using h2
  | tryRightSucc i h hav =>
    apply inv_upd_right hn hInv i _ _ (Or.inl rfl) (Or.inr hav)
    · have h1 := (hInv i).1
      rw [h] at h1
      simpa [holds_left] using h1
    · simp [holds_right]
  | tryRightFail i h hne =>
    apply inv_upd_left hn hInv i _ _ (Or.inr rfl)
    · exact Or.inl ((hInv i).1.mpr (by rw [h]; rfl))
    · simp [holds_left]
    · have h2 := (hInv i).2
      rw [h] at h2
      simpa [holds_right] using h2
  | waitRightFail i h h2 => exact hInv
  | waitRightSucc i h hav =>
    apply inv_upd_right hn hInv i _ _ (Or.inl rfl) (Or.inr hav)
    · have h1 := (hInv i).1
      rw [h] at h1
      simpa [holds_left] using h1
    · simp [holds_right]
  | tryLeftSucc i h hav =>
    apply inv_upd_left hn hInv i _ _ (Or.inl rfl) (Or.inr hav)
    · simp [holds_left]
    · have h2 := (hInv i).2
      rw [h] at h2
      simpa [holds_right] using h2
  | tryLeftFail i h hne =>
    apply inv_upd_right hn hInv i _ _ (Or.inr rfl)
    · exact Or.inl ((hInv i).2.mpr (by rw [h]; rfl))
    · have h1 := (hInv i).1
      rw [h] at h1
      simpa [holds_left] using h1
    · simp [holds_right]
  | finishDining i h =>
    apply inv_upd_right hn hInv i _ _ (Or.inr rfl)
    · exact Or.inl ((hInv i).2.mpr (by rw [h]; rfl))
    · have h1 := (hInv i).1
      rw [h] at h1
      simpa [holds_left] using h1
    · simp [holds_right]
  | backToThinks i h =>
    apply inv_upd_left hn hInv i _ _ (Or.inr rfl)
    · exact Or.inl ((hInv i).1.mpr (by rw [h]; rfl))
    · simp [holds_left]
    · have h2 := (hInv i).2
      rw [h] at h2
      simpa [holds_right] using h2

/-- The invariant holds in every reachable state. -/
lemma inv_reachable {n : Nat} (hn : 2 ≤ n) {s : RingState n}
    (h : Reachable n s) : Inv s := by
  induction h with
  | refl =>
    intro i
    exact ⟨by simp [init_state, holds_left], by simp [init_state, holds_right]⟩
  | tail hsteps hstep ih => exact inv_step hn ih hstep

/-! ## Helper lemmas for the monitor claims -/

/-- Running the drain loop into its first timeout-on-empty iteration: every
earlier non-empty queue is handed over as one batch, the watchdog exception
is raised at the timeout, and the iterations after it are never reached. -/
lemma monitor_worker_timeout : ∀ (pre : List MonIter) (post : List MonIter),
    (∀ it ∈ pre, it.queue.isEmpty = true → it.timed_out = false) →
    monitor_worker (pre ++ ⟨[], true⟩ :: post) =
      ((pre.map MonIter.queue).filter (fun q => !q.isEmpty), some liveness_msg) := by
  intro pre
  induction pre with
  | nil =>
    intro post hpre
    simp [monitor_worker]
  | cons it rest ih =>
    intro post hpre
    have hrest := ih post (fun x hx => hpre x (List.mem_cons_of_mem it hx))
    by_cases hq : it.queue.isEmpty = true
    · have ht : it.timed_out = false := hpre it (List.mem_cons_self it rest) hq
      simp [monitor_worker, hq, ht, hrest]
    · simp [monitor_worker, hq, hrest]

/-- The total contents of the drained batches plus the still-pending queue
equal the appended events, in order, for any interleaving and any start
state. -/
lemma mon_fold_inv (ops : List MonOp) (s : MonState) :
    (ops.foldl mon_step s).batches.flatten ++ (ops.foldl mon_step s).m_log_queue =
      (s.batches.flatten ++ s.m_log_queue) ++ appended_events ops := by
  induction ops generalizing s with
  | nil => simp [appended_events]
  | cons op rest ih =>
    cases op with
    | append e =>
      rw [List.foldl_cons, ih]
      simp [mon_step, appended_events, List.filterMap_cons]
    | drain =>
      rw [List.foldl_cons, ih]
      by_cases hq : s.m_log_queue.isEmpty = true
      · simp [mon_step, hq, appended_events, List.filterMap_cons]
      · simp [mon_step, hq, appended_events, List.filterMap_cons]

/-- `Philosopher::operator()` in `philosophers.cpp` executes the cycles up to
and including the first raising one, then the `catch (...)` outside the
`for (;;)` ends the function: later cycles never run. -/
lemma run_cpp_stops : ∀ (pre post : List CycleOutcome),
    (∀ c ∈ pre, c = .ok) →
    philosopher_run_cpp (pre ++ .exn :: post) = (pre ++ [.exn], false) := by
  intro pre
  induction pre with
  | nil =>
    intro post hpre
    rfl
  | cons c rest ih =>
    intro post hpre
    have hc : c = .ok := hpre c (List.mem_cons_self c rest)
    subst hc
    have hrest := ih post (fun x hx => hpre x (List.mem_cons_of_mem _ hx))
    simp [philosopher_run_cpp, hrest]

/-- No exception ever escapes `Philosopher::operator()`. -/
lemma run_cpp_no_escape : ∀ cycles : List CycleOutcome,
    (philosopher_run_cpp cycles).2 = false := by
  intro cycles
  induction cycles with
  | nil => rfl
  | cons c rest ih =>
    cases c
    · simp [philosopher_run_cpp, ih]
    · rfl

/-! ## Concrete states for the C1 witness: in a ring of two, philosopher 0
thinks, goes hungry, claims fork 0 and then fork 1, and dines. -/

/-- Philosopher 0 has entered `aquire_forks`. -/
def c1_state1 : RingState 2 := setPC (init_state 2) 0 .hungryWaitL

/-- Philosopher 0 has claimed its left fork (fork 0). -/
def c1_state2 : RingState 2 :=
  setFork (setPC c1_state1 0 .hungryTryR) (left_fork 0) (some 0)

/-- Philosopher 0 has claimed its right fork (fork 1) and dines. -/
def c1_state3 : RingState 2 :=
  setFork (setPC c1_state2 0 .dines) (right_fork 0) (some 0)

/-- The dining state above is reachable from the initial state. -/
lemma c1_state3_reachable : Reachable 2 c1_state3 := by
  have h1 : Step (init_state 2) c1_state1 :=
    Step.startHungry (init_state 2) 0 rfl
  have h2 : Step c1_state1 c1_state2 :=
    Step.waitLeftSucc c1_state1 0 (by decide) (by decide)
  have h3 : Step c1_state2 c1_state3 :=
    Step.tryRightSucc c1_state2 0 (by decide) (by decide)
  exact Relation.ReflTransGen.tail
    (Relation.ReflTransGen.tail (Relation.ReflTransGen.single h1) h2) h3

/-! ## The claims -/

/-- C1: in every reachable state of a ring of at least two philosophers, a
philosopher whose state is `dines` holds both its left and its right fork —
it entered `dines` only after the acquisition protocol claimed both, and the
invariant holding at every reachable state means it keeps both for the whole
dining phase — and a philosopher whose state is `thinks` holds neither fork:
both were released before it returned to thinking. -/
theorem dining_implies_both_forks_held {n : Nat} (hn : 2 ≤ n) (s : RingState n)
    (hs : Reachable n s) (i : Fin n) :
    (s.pc i = .dines →
      s.heldBy (left_fork i) = some i ∧ s.heldBy (right_fork i) = some i) ∧
    (s.pc i = .thinks →
      s.heldBy (left_fork i) ≠ some i ∧ s.heldBy (right_fork i) ≠ some i) := by
  have hInv := inv_reachable hn hs
  constructor
  · intro hd
    exact ⟨(hInv i).1.mpr (by rw [hd]; rfl), (hInv i).2.mpr (by rw [hd]; rfl)⟩
  · intro ht
    constructor
    · intro hcon
      have h1 := (hInv i).1.mp hcon
      rw [ht] at h1
      simp [holds_left] at h1
    · intro hcon
      have h2 := (hInv i).2.mp hcon
      rw [ht] at h2
      simp [holds_right] at h2

/-- Witness for C1: a concrete reachable dining state of a two-ring in which
philosopher 0 indeed holds fork 0 and fork 1. -/
theorem dining_implies_both_forks_held_witness :
    c1_state3.pc 0 = .dines ∧
    c1_state3.heldBy (left_fork 0) = some 0 ∧
    c1_state3.heldBy (right_fork 0) = some 0 := by
  have h :=
    (dining_implies_both_forks_held (by norm_num) c1_state3 c1_state3_reachable 0).1
      (by decide)
  exact ⟨by decide, h⟩

/-- C2: when the drain loop reaches an iteration that finds the queue empty
and whose wait ends in timeout — no event arrived in the `10 × max_interval_ms`
window — and no earlier iteration did, the watchdog exception is raised
exactly once (the result carries the single message `liveness_msg`), the
loop consumes nothing after that iteration (the result is the same whatever
follows it), and `main` exits with `EXIT_FAILURE ≠ 0` after `Canteen`'s
handler re-throws. -/
theorem watchdog_timeout_reports_once_and_exits (pre post : List MonIter)
    (hpre : ∀ it ∈ pre, it.queue.isEmpty = true → it.timed_out = false) :
    (monitor_worker (pre ++ ⟨[], true⟩ :: post)).2 = some liveness_msg ∧
    monitor_worker (pre ++ ⟨[], true⟩ :: post) =
      monitor_worker (pre ++ [⟨[], true⟩]) ∧
    main_exit_code (canteen_call (monitor_worker (pre ++ ⟨[], true⟩ :: post)).2).2 =
      EXIT_FAILURE ∧
    EXIT_FAILURE ≠ 0 := by
  have h1 := monitor_worker_timeout pre post hpre
  have h2 := monitor_worker_timeout pre [] hpre
  refine ⟨by rw [h1], by rw [h1, h2], ?_, by decide⟩
  rw [h1]
  rfl

/-- Witness for C2: a drain loop whose very first iteration times out on an
empty queue. -/
theorem watchdog_timeout_reports_once_and_exits_witness :
    (monitor_worker ([] ++ ⟨[], true⟩ :: [])).2 = some liveness_msg ∧
    main_exit_code (canteen_call (monitor_worker ([] ++ ⟨[], true⟩ :: [])).2).2 =
      EXIT_FAILURE := by
  have h := watchdog_timeout_reports_once_and_exits [] []
    (fun it hit => absurd hit (List.not_mem_nil it))
  exact ⟨h.1, h.2.2.1⟩

/-- C3: over any interleaving of `log_state` appends and drain passes, the
concatenation of the drained batches followed by the still-pending queue is
exactly the sequence of appended events — no event is lost, none is
delivered twice, and each drain removes the whole queue at once; in
particular once the queue has been fully drained, every appended event sits
in exactly one batch. -/
theorem drained_batches_partition_appended_events (ops : List MonOp) :
    (mon_run ops).batches.flatten ++ (mon_run ops).m_log_queue =
      appended_events ops ∧
    ((mon_run ops).m_log_queue = [] →
      (mon_run ops).batches.flatten = appended_events ops) := by
  have h : (mon_run ops).batches.flatten ++ (mon_run ops).m_log_queue =
      appended_events ops := by
    have h0 := mon_fold_inv ops ⟨[], []⟩
    simpa [mon_run] using h0
  refine ⟨h, fun he => ?_⟩
  rw [he, List.append_nil] at h
  exact h

/-- Witness for C3: one appended event followed by one drain pass. -/
theorem drained_batches_partition_appended_events_witness :
    (mon_run [.append (0, .hungry), .drain]).batches.flatten =
      appended_events [.append (0, .hungry), .drain] :=
  (drained_batches_partition_appended_events [.append (0, .hungry), .drain]).2
    (by decide)

/-- C4: constructing the `Canteen` with 0 or 1 philosophers throws
`std::invalid_argument` — before any fork or philosopher is built, so before
any agent thread could be started in `operator()` — and constructing it with
2 succeeds, wiring philosopher 0 to forks (0, 1) and philosopher 1 to forks
(1, 0). -/
theorem canteen_rejects_fewer_than_two :
    Canteen_ctor 0 = .error "Invalid number of philosophers (<2)" ∧
    Canteen_ctor 1 = .error "Invalid number of philosophers (<2)" ∧
    Canteen_ctor 2 = .ok ([0, 1], [⟨0, 0, 1⟩, ⟨1, 1, 0⟩]) :=
  ⟨rfl, rfl, rfl⟩

/-- C5: `try_to_get` returns `true` and moves the fork to held exactly when
the flag was available at the call, and a `false` return means the fork was
held and leaves the flag unchanged; `wait_until_available` returns `true`
exactly when the call claimed the fork (either immediately or at the
re-check after the wait), a `true` return leaves the fork held, and a
`false` return leaves the flag exactly as the wait left it. -/
theorem fork_claim_semantics (a w : Bool) :
    ((try_to_get a).1 = true ↔ a = true) ∧
    ((try_to_get a).1 = true → (try_to_get a).2 = false) ∧
    ((try_to_get a).1 = false → a = false ∧ (try_to_get a).2 = a) ∧
    ((wait_until_available a w).1 = true ↔ (a = true ∨ w = true)) ∧
    ((wait_until_available a w).1 = true → (wait_until_available a w).2 = false) ∧
    ((wait_until_available a w).1 = false → (wait_until_available a w).2 = w) := by
  cases a <;> cases w <;> decide

/-- Witness for C5: an available fork claimed by `try_to_get`, and a fork
claimed at the post-wait re-check by `wait_until_available`. -/
theorem fork_claim_semantics_witness :
    (try_to_get true).2 = false ∧ (wait_until_available false true).2 = false :=
  ⟨(fork_claim_semantics true true).2.1 (by decide),
    (fork_claim_semantics false true).2.2.2.2.1 (by decide)⟩

/-- Counterexample for C6: in `philosophers.cpp` the `try`/`catch (...)` of
`Philosopher::operator()` wraps the entire `for (;;)` loop, so after the
first cycle raises, the loop is not re-entered: with a raising first cycle
and a second cycle available, only the first runs — the agent does not
restart its cycle from Thinking. -/
theorem philosopher_cpp_no_restart_after_exception :
    (philosopher_run_cpp [.exn, .ok]).1 = [.exn] ∧
    (philosopher_run_cpp [.exn, .ok]).1 ≠ [.exn, .ok] := by
  decide

/-- C6 (amended): an exception in a cycle is caught by the agent's own
handler and never escapes its execution unit (so it cannot take down sibling
threads or the Monitor); but in `philosophers.cpp` the handler sits outside
the `for (;;)`, so the agent's loop ends at the first raising cycle instead
of restarting from Thinking — only in the `src/unnamed/part_001` variant,
whose `catch` is inside the loop, does the agent keep cycling. -/
theorem exception_caught_agent_stops (pre post : List CycleOutcome)
    (hpre : ∀ c ∈ pre, c = .ok) :
    philosopher_run_cpp (pre ++ .exn :: post) = (pre ++ [.exn], false) ∧
    philosopher_run_part001 (pre ++ .exn :: post) = (pre ++ .exn :: post, false) ∧
    (∀ cycles : List CycleOutcome, (philosopher_run_cpp cycles).2 = false) :=
  ⟨run_cpp_stops pre post hpre, rfl, run_cpp_no_escape⟩

/-- Witness for C6: a first cycle that raises, with one more cycle pending. -/
theorem exception_caught_agent_stops_witness :
    philosopher_run_cpp ([] ++ .exn :: [.ok]) = ([] ++ [.exn], false) :=
  (exception_caught_agent_stops [] [.ok]
    (fun c hc => absurd hc (List.not_mem_nil c))).1

/-- Counterexample for C7: the line the code renders for event (0, thinks)
is `"Philosopher #0 thinks"`, not of the claimed form `"Agent #0 thinks"`. -/
theorem sl_line_not_agent_form :
    sl_log_event (0, .thinks) ≠ spec_agent_line (0, .thinks) ∧
    sl_log_event (0, .thinks) = "Philosopher #0 thinks" := by
  decide

/-- C7 (amended): the line-oriented renderer emits exactly one text line per
state-transition event, of the form `"Philosopher #<id> <state-name>"` (with
state names `thinks`/`hungry`/`dines`), not `"Agent #<id> <state-name>"`. -/
theorem sl_one_line_per_event (work_log : List Event) :
    (sl_events_logger work_log).length = work_log.length ∧
    ∀ (k : Nat) (hk : k < work_log.length)
      (hk2 : k < (sl_events_logger work_log).length),
      (sl_events_logger work_log).get ⟨k, hk2⟩ =
        "Philosopher #" ++ toString (work_log.get ⟨k, hk⟩).1 ++ " " ++
          state_word (work_log.get ⟨k, hk⟩).2 := by
  constructor
  · simp [sl_events_logger]
  · intro k hk hk2
    simp only [sl_events_logger, List.get_eq_getElem, List.getElem_map]
    cases hst : (work_log.get ⟨k, hk⟩).2 <;>
      simp only [List.get_eq_getElem] at hst <;>
      simp [sl_log_event, state_word, hst]

/-- Witness for C7: the single event (3, hungry) renders as the single line
`"Philosopher #3 hungry"`. -/
theorem sl_one_line_per_event_witness :
    (sl_events_logger [(3, .hungry)]).length = 1 ∧
    (sl_events_logger [(3, .hungry)]).get ⟨0, by decide⟩ =
      "Philosopher #3 hungry" := by
  have h := sl_one_line_per_event [(3, .hungry)]
  refine ⟨h.1, ?_⟩
  rw [h.2 0 (by decide) (by decide)]
  rfl

/-- C8: the snapshot renderer applied to the single batch
`[(0, hungry), (2, dines), (0, dines)]` from an empty buffer yields
`[dining-symbol, thinking-symbol, dining-symbol]` — position 1 was filled
with the thinking symbol when the buffer grew for agent 2 and is otherwise
untouched, and agent 0's second event overwrote its first — with the symbol
mapping thinks → space, hungry → `.`, dines → `|`. -/
theorem waterfall_snapshot_batch :
    wf_events_logger [] [(0, .hungry), (2, .dines), (0, .dines)] =
      [symb .dines, symb .thinks, symb .dines] ∧
    symb .thinks = ' ' ∧ symb .hungry = '.' ∧ symb .dines = '|' := by
  decide

/-- C9: `main` computes `std::max(2, atoi(argv[1]))`, so every parsed value
below 2 — including 0, 1, negatives, and the 0 that `atoi` yields on
non-numeric input — starts the simulation with exactly 2 philosophers, and
the `Canteen` constructor's rejection can never fire from the command line:
the constructed count is always at least 2 and construction succeeds. -/
theorem main_clamps_agent_count (parsed : Int) :
    (parsed < 2 → num_ph parsed = 2 ∧
      ∃ ws, Canteen_ctor (num_ph parsed) = .ok ws ∧ ws.2.length = 2) ∧
    2 ≤ num_ph parsed ∧
    (Canteen_ctor (num_ph parsed)).isOk = true := by
  have hmax : (2 : Int) ≤ max 2 parsed := le_max_left 2 parsed
  have h2 : 2 ≤ num_ph parsed := by
    unfold num_ph
    omega
  have hok : (Canteen_ctor (num_ph parsed)).isOk = true := by
    simp [Canteen_ctor, Nat.not_lt.mpr h2, Except.isOk, Except.toBool]
  refine ⟨fun hlt => ?_, h2, hok⟩
  have hval : num_ph parsed = 2 := by
    unfold num_ph
    have : max 2 parsed = 2 := max_eq_left (le_of_lt hlt)
    omega
  refine ⟨hval, ?_⟩
  rw [hval]
  exact ⟨([0, 1], [⟨0, 0, 1⟩, ⟨1, 1, 0⟩]), rfl, rfl⟩

/-- Witness for C9: a parsed value of 0 (as for non-numeric input) yields a
ring of exactly 2 philosophers and a successful construction. -/
theorem main_clamps_agent_count_witness :
    num_ph 0 = 2 ∧ (Canteen_ctor (num_ph 0)).isOk = true := by
  have h := main_clamps_agent_count 0
  exact ⟨(h.1 (by decide)).1, h.2.2⟩

/-- C10: `Fork::free` sets the availability flag to `true` and issues a
`notify_one` whatever the prior state; calling it on an already-available
fork is accepted, leaves the fork available, and there is no assertion path,
so `free` is idempotent on the availability state. -/
theorem fork_free_unconditional_idempotent (a : Bool) :
    fork_free a = (true, true) ∧
    fork_free true = (true, true) ∧
    fork_free (fork_free a).1 = fork_free a :=
  ⟨rfl, rfl, rfl⟩

end Philosophers
